import Mathlib
/-!
Verification development for the ICU MessageFormat parser, reconstructor,
CLDR plural-rule table and segment extractor of the i18n translation action.
The definitions below are a shallow embedding of the TypeScript sources
(`src/icu/parser.ts`, `src/icu/reconstructor.ts`, `src/icu/cldr-rules.ts`,
`src/icu/types.ts`): strings are modelled as `String`/`List Char`, JavaScript
`Map`s as association lists, thrown `ICUParseError`s as `Except`, and the
imperative cursor loops as recursive functions over the remaining character
list (the top-level parse loop takes explicit fuel because the source loop is
not structurally decreasing).  JavaScript `\s` is modelled on its ASCII part,
`localeCompare` as code-point comparison, and a cursor that runs past the end
of the input is clamped to the input length.
-/
/-- Left brace character (written via its code point). -/
def lbrace : Char := Char.ofNat 123
/-- Right brace character (written via its code point). -/
def rbrace : Char := Char.ofNat 125
/-- Single-quote character (written via its code point). -/
def squote : Char := Char.ofNat 39
/-- Character class of `/[a-zA-Z0-9_-]/` used by `readIdentifier`. -/
def identChar (c : Char) : Bool :=
  c.isAlpha || c.isDigit || c = '_' || c = '-'
/-- ASCII part of the JavaScript `\s` class used by `skipWhitespace`. -/
def jsWhitespace (c : Char) : Bool :=
  c = ' ' || c = '\t' || c = '\n' || c = '\r' || c = Char.ofNat 11 || c = Char.ofNat 12
/-- Embedding of `ICULexer.skipWhitespace` on the remaining input. -/
def skipWs : List Char → List Char
  | [] => []
  | c :: cs => if jsWhitespace c then skipWs cs else c :: cs
/-- Embedding of `ICULexer.readIdentifier`: maximal run of identifier
characters together with the remaining input. -/
def readIdentifier : List Char → List Char × List Char
  | [] => ([], [])
  | c :: cs =>
    if identChar c then
      let r := readIdentifier cs
      (c :: r.1, r.2)
    else ([], c :: cs)
/-- Embedding of `ICULexer.readUntil`: read until a stop character at brace
depth zero; the depth may go negative exactly as in the source. -/
def readUntil (stops : List Char) : Int → List Char → List Char × List Char
  | _, [] => ([], [])
  | depth, c :: cs =>
    if c = lbrace then
      let r := readUntil stops (depth + 1) cs
      (c :: r.1, r.2)
    else if c = rbrace then
      if depth = 0 && stops.contains rbrace then ([], c :: cs)
      else
        let r := readUntil stops (depth - 1) cs
        (c :: r.1, r.2)
    else if depth = 0 && stops.contains c then ([], c :: cs)
    else
      let r := readUntil stops depth cs
      (c :: r.1, r.2)
/-- Embedding of the plain-text scanning loop of `parseICUMessage`: accumulate
text until a brace, interpreting `''` as a literal quote and a single quote as
the start of a quoted span (the `Bool` flag records being inside a quoted
span, during which braces are ordinary text). -/
def readText : Bool → List Char → List Char × List Char
  | _, [] => ([], [])
  | true, c :: cs =>
    if c = squote then readText false cs
    else
      let r := readText true cs
      (c :: r.1, r.2)
  | false, c :: cs =>
    if c = lbrace || c = rbrace then ([], c :: cs)
    else if c = squote then
      match cs with
      | c2 :: cs2 =>
        if c2 = squote then
          let r := readText false cs2
          (squote :: r.1, r.2)
        else readText true (c2 :: cs2)
      | [] => readText true []
    else
      let r := readText false cs
      (c :: r.1, r.2)
/-- Embedding of the `ICUParseError` thrown by the parser (message text,
source string and character offset). -/
structure ICUParseErr where
  message : String
  source : String
  position : Option Nat
deriving DecidableEq
/-- Plural variant `{ category, text }` from `src/icu/types.ts`. -/
structure PluralVariant where
  category : String
  text : String
deriving DecidableEq
/-- Select option `{ key, value }` from `src/icu/types.ts`. -/
structure SelectOption where
  key : String
  value : String
deriving DecidableEq
/-- Tagged union of the five ICU element kinds, each carrying its
`[start, stop)` character span (`end` in the source). -/
inductive ICUElement where
  | text (value : String) (start stop : Nat)
  | argument (name : String) (argType format : Option String) (start stop : Nat)
  | plural (name : String) (offset : Option Int) (variants : List PluralVariant) (start stop : Nat)
  | select (name : String) (options : List SelectOption) (start stop : Nat)
  | selectordinal (name : String) (variants : List PluralVariant) (start stop : Nat)
deriving DecidableEq
/-- Result record of `parseICUMessage` from `src/icu/types.ts`; the field
`variables'` embeds the source's `variables` array (that word is a reserved
token in Lean), in `Set` insertion order. -/
structure ParsedICUMessage where
  original : String
  elements : List ICUElement
  hasPlurals : Bool
  hasSelect : Bool
  variables' : List String
  isComplex : Bool
deriving DecidableEq
/-- Decimal value of a digit string. -/
def digitsVal (ds : List Char) : Nat :=
  ds.foldl (fun a c => a * 10 + (c.toNat - 48)) 0
/-- Embedding of JavaScript `parseInt(s, 10)` on identifier-shaped input:
optional sign, then the maximal decimal-digit prefix; `none` models `NaN`. -/
def jsParseInt (s : List Char) : Option Int :=
  let signRest : Int × List Char :=
    match s with
    | c :: r => if c = '-' then (-1, r) else if c = '+' then (1, r) else (1, c :: r)
    | [] => (1, [])
  let ds := signRest.2.takeWhile (fun c => c.isDigit)
  if ds.isEmpty then none
  else some (signRest.1 * (digitsVal ds : Int))
/-- Embedding of `readNestedContent`: brace-balanced read of a variant or
option body starting at depth one, quoting-aware, failing with the source's
"Unmatched braces" error when the input ends before the depth returns to
zero. -/
def readNestedContent (src : String) : Nat → List Char → Except ICUParseErr (List Char × List Char)
  | _, [] => .error ⟨"Unmatched braces in message", src, some src.length⟩
  | depth, c :: cs =>
    if c = lbrace then
      (readNestedContent src (depth + 1) cs).map (fun r => (c :: r.1, r.2))
    else if c = rbrace then
      if depth = 1 then .ok ([], cs)
      else (readNestedContent src (depth - 1) cs).map (fun r => (c :: r.1, r.2))
    else if c = squote then
      match cs with
      | c2 :: cs2 =>
        if c2 = squote then (readNestedContent src depth cs2).map (fun r => (c :: c2 :: r.1, r.2))
        else (readNestedContent src depth (c2 :: cs2)).map (fun r => (c :: r.1, r.2))
      | [] => (readNestedContent src depth []).map (fun r => (c :: r.1, r.2))
    else
      (readNestedContent src depth cs).map (fun r => (c :: r.1, r.2))
/-- Embedding of the variant-reading loop of `parsePluralOrSelectordinal`:
repeatedly read a category token (either `=` plus an identifier, or a bare
identifier), expect a brace, and read the brace-balanced variant text.  The
loop exits silently at end of input, exactly as the source `while` loop does;
`none` means the fuel ran out. -/
def parseVariants (src : String) : Nat → List Char → List PluralVariant →
    Option (Except ICUParseErr (List PluralVariant × List Char))
  | 0, _, _ => none
  | fuel + 1, rest, acc =>
    let r1 := skipWs rest
    match r1 with
    | [] => some (.ok (acc, []))
    | c :: cs =>
      if c = rbrace then some (.ok (acc, cs))
      else
        let catRest : List Char × List Char :=
          if c = '=' then
            let idr := readIdentifier cs
            ('=' :: idr.1, idr.2)
          else readIdentifier (c :: cs)
        if catRest.1.isEmpty then
          some (.error ⟨"Expected plural category", src, some (src.length - catRest.2.length)⟩)
        else
          let r3 := skipWs catRest.2
          match r3 with
          | c3 :: cs3 =>
            if c3 = lbrace then
              match readNestedContent src 1 cs3 with
              | .error e => some (.error e)
              | .ok tr =>
                parseVariants src fuel tr.2 (acc ++ [⟨String.mk catRest.1, String.mk tr.1⟩])
            else
              some (.error ⟨"Expected \x7b after plural category", src, some (src.length - r3.length)⟩)
          | [] =>
            some (.error ⟨"Expected \x7b after plural category", src, some src.length⟩)
/-- Embedding of the option-reading loop of `parseSelect`: repeatedly read a
key identifier, expect a brace, and read the brace-balanced option value. -/
def parseOptions (src : String) : Nat → List Char → List SelectOption →
    Option (Except ICUParseErr (List SelectOption × List Char))
  | 0, _, _ => none
  | fuel + 1, rest, acc =>
    let r1 := skipWs rest
    match r1 with
    | [] => some (.ok (acc, []))
    | c :: cs =>
      if c = rbrace then some (.ok (acc, cs))
      else
        let kr := readIdentifier (c :: cs)
        if kr.1.isEmpty then
          some (.error ⟨"Expected select key", src, some (src.length - kr.2.length)⟩)
        else
          let r3 := skipWs kr.2
          match r3 with
          | c3 :: cs3 =>
            if c3 = lbrace then
              match readNestedContent src 1 cs3 with
              | .error e => some (.error e)
              | .ok tr =>
                parseOptions src fuel tr.2 (acc ++ [⟨String.mk kr.1, String.mk tr.1⟩])
            else
              some (.error ⟨"Expected \x7b after select key", src, some (src.length - r3.length)⟩)
          | [] =>
            some (.error ⟨"Expected \x7b after select key", src, some src.length⟩)
/-- Embedding of the offset-probing prefix of `parsePluralOrSelectordinal`:
when a comma follows, the next identifier is consumed unconditionally and an
`offset:N` value is parsed only when that identifier is the word `offset`
(the identifier is not restored otherwise, exactly as in the source). -/
def parseOffsetProbe (src : String) (rest : List Char) :
    Except ICUParseErr (Option Int × List Char) :=
  let r0 := skipWs rest
  match r0 with
  | c :: cs =>
    if c = ',' then
      let cs1 := skipWs cs
      let kw := readIdentifier cs1
      if String.mk kw.1 = "offset" then
        let r1 := skipWs kw.2
        match r1 with
        | c1 :: cs2 =>
          if c1 = ':' then
            let r2 := skipWs cs2
            let offr := readIdentifier r2
            match jsParseInt offr.1 with
            | some n => .ok (some n, offr.2)
            | none => .error ⟨"Invalid offset value", src, some (src.length - offr.2.length)⟩
          else .ok (none, c1 :: cs2)
        | [] => .ok (none, [])
      else .ok (none, kw.2)
    else .ok (none, c :: cs)
  | [] => .ok (none, [])
/-- Embedding of `parsePluralOrSelectordinal` minus element construction:
probe for an offset clause, then run the variant loop. -/
def parsePluralTail (src : String) (fuel : Nat) (rest : List Char) :
    Option (Except ICUParseErr (Option Int × List PluralVariant × List Char)) :=
  match parseOffsetProbe src rest with
  | .error e => some (.error e)
  | .ok (off, r) =>
    match parseVariants src fuel r [] with
    | none => none
    | some (.error e) => some (.error e)
    | some (.ok (vs, rest2)) => some (.ok (off, vs, rest2))
/-- Embedding of `Set.add` on the insertion-ordered variable list. -/
def addVar (vars : List String) (n : String) : List String :=
  if n ∈ vars then vars else vars ++ [n]
/-- Trim of JavaScript `String.trim` (whitespace from both ends). -/
def jsTrim (l : List Char) : List Char :=
  ((l.dropWhile jsWhitespace).reverse.dropWhile jsWhitespace).reverse
/-- Embedding of the main loop of `parseICUMessage`.  One fuel unit is spent
per iteration of the source `while` loop; `none` models a loop that is still
running when the fuel is gone.  Positions are recovered from the length of the
remaining input. -/
def parseLoop (src : String) : Nat → List Char → List ICUElement → List String → Bool → Bool →
    Option (Except ICUParseErr ParsedICUMessage)
  | 0, _, _, _, _, _ => none
  | fuel + 1, rest, elems, vars, hp, hs =>
    match rest with
    | [] => some (.ok ⟨src, elems, hp, hs, vars, hp || hs⟩)
    | c :: cs =>
      let start := src.length - (cs.length + 1)
      if c = lbrace then
        let cs1 := skipWs cs
        let nr := readIdentifier cs1
        if nr.1.isEmpty then
          some (.error ⟨"Expected identifier in argument", src, some start⟩)
        else
          let name := String.mk nr.1
          let vars1 := addVar vars name
          let r1 := skipWs nr.2
          match r1 with
          | c1 :: cs2 =>
            if c1 = rbrace then
              parseLoop src fuel cs2
                (elems ++ [.argument name none none start (src.length - cs2.length)]) vars1 hp hs
            else if c1 = ',' then
              let cs3 := skipWs cs2
              let atr := readIdentifier cs3
              let argType := String.mk atr.1
              let r2 := skipWs atr.2
              if argType = "plural" || argType = "selectordinal" then
                match parsePluralTail src (fuel + 1) r2 with
                | none => none
                | some (.error e) => some (.error e)
                | some (.ok (off, vs, rest2)) =>
                  let stop := src.length - rest2.length
                  let elem := if argType = "selectordinal" then
                      ICUElement.selectordinal name vs start stop
                    else
                      ICUElement.plural name off vs start stop
                  parseLoop src fuel rest2 (elems ++ [elem]) vars1 true hs
              else if argType = "select" then
                let r3 := skipWs r2
                let r4 := match r3 with
                  | c2 :: cs4 => if c2 = ',' then cs4 else c2 :: cs4
                  | [] => ([] : List Char)
                match parseOptions src (fuel + 1) r4 [] with
                | none => none
                | some (.error e) => some (.error e)
                | some (.ok (opts, rest2)) =>
                  parseLoop src fuel rest2
                    (elems ++ [.select name opts start (src.length - rest2.length)]) vars1 hp true
              else
                let fr : Option (List Char) × List Char :=
                  match r2 with
                  | c2 :: cs4 =>
                    if c2 = ',' then
                      let cs5 := skipWs cs4
                      let ur := readUntil [rbrace] 0 cs5
                      (some ur.1, ur.2)
                    else (none, c2 :: cs4)
                  | [] => (none, [])
                let r5 := skipWs fr.2
                match r5 with
                | c5 :: cs6 =>
                  if c5 = rbrace then
                    let fmt := fr.1.map (fun l => String.mk (jsTrim l))
                    parseLoop src fuel cs6
                      (elems ++ [.argument name (some argType) fmt start (src.length - cs6.length)])
                      vars1 hp hs
                  else
                    some (.error ⟨"Expected \x7d after argument", src, some (src.length - r5.length)⟩)
                | [] =>
                  some (.error ⟨"Expected \x7d after argument", src, some src.length⟩)
            else
              some (.error ⟨"Unexpected character \x27" ++ String.mk [c1] ++ "\x27 in argument",
                src, some (src.length - r1.length)⟩)
          | [] =>
            some (.error ⟨"Unexpected character \x27undefined\x27 in argument", src,
              some src.length⟩)
      else
        let tr := readText false (c :: cs)
        if tr.1.isEmpty then
          parseLoop src fuel tr.2 elems vars hp hs
        else
          parseLoop src fuel tr.2
            (elems ++ [.text (String.mk tr.1) start (src.length - tr.2.length)]) vars hp hs
/-- Embedding of `parseICUMessage`, with explicit fuel for the main loop:
`some (.ok p)` is a successful parse, `some (.error e)` a thrown
`ICUParseError`, and `none` means the loop had not finished within `fuel`
iterations. -/
def parseICUMessage (message : String) (fuel : Nat) :
    Option (Except ICUParseErr ParsedICUMessage) :=
  parseLoop message fuel message.data [] [] false false
/-- CLDR plural category from `src/icu/types.ts`. -/
inductive PluralCategory where
  | zero | one | two | few | many | other
deriving DecidableEq
/-- Category name as written in messages and in the rule table keys. -/
def PluralCategory.asString : PluralCategory → String
  | .zero => "zero"
  | .one => "one"
  | .two => "two"
  | .few => "few"
  | .many => "many"
  | .other => "other"
/-- Plural rule set for one language from `src/icu/cldr-rules.ts`; the partial
example records are association lists and example numbers are rationals (the
source stores JavaScript numbers such as `1.5`). -/
structure PluralRuleSet where
  cardinalCategories : List PluralCategory
  ordinalCategories : List PluralCategory
  cardinalExamples : List (PluralCategory × List Rat)
  ordinalExamples : List (PluralCategory × List Rat)
deriving DecidableEq
/-- Embedding of the `PLURAL_RULES` table, key for key and number for number. -/
def PLURAL_RULES : List (String × PluralRuleSet) := [
  ("en", ⟨[.one, .other], [.one, .two, .few, .other],
    [(.one, [1]), (.other, [0, 2, 3, 4, 5, 10, 100])],
    [(.one, [1, 21, 31, 41]), (.two, [2, 22, 32, 42]), (.few, [3, 23, 33, 43]),
     (.other, [4, 5, 6, 7, 8, 9, 10, 11, 12, 13])]⟩),
  ("de", ⟨[.one, .other], [.other],
    [(.one, [1]), (.other, [0, 2, 3, 4, 5, 10, 100])],
    [(.other, [1, 2, 3, 4, 5, 10, 100])]⟩),
  ("fr", ⟨[.one, .many, .other], [.one, .other],
    [(.one, [0, 1]), (.many, [1000000]), (.other, [2, 3, 4, 5, 10, 100])],
    [(.one, [1]), (.other, [2, 3, 4, 5, 10, 100])]⟩),
  ("es", ⟨[.one, .many, .other], [.other],
    [(.one, [1]), (.many, [1000000]), (.other, [0, 2, 3, 4, 5, 10, 100])],
    [(.other, [1, 2, 3, 4, 5, 10, 100])]⟩),
  ("it", ⟨[.one, .many, .other], [.many, .other],
    [(.one, [1]), (.many, [1000000]), (.other, [0, 2, 3, 4, 5, 10, 100])],
    [(.many, [8, 11, 80, 800]), (.other, [1, 2, 3, 4, 5, 10, 100])]⟩),
  ("pt", ⟨[.one, .many, .other], [.other],
    [(.one, [1]), (.many, [1000000]), (.other, [0, 2, 3, 4, 5, 10, 100])],
    [(.other, [1, 2, 3, 4, 5, 10, 100])]⟩),
  ("ru", ⟨[.one, .few, .many, .other], [.other],
    [(.one, [1, 21, 31, 41, 51, 61]), (.few, [2, 3, 4, 22, 23, 24, 32, 33, 34]),
     (.many, [0, 5, 6, 7, 8, 9, 10, 11, 12, 13, 14, 15, 16, 17, 18, 19, 20]),
     (.other, [1.5, 2.5])],
    [(.other, [1, 2, 3, 4, 5, 10, 100])]⟩),
  ("pl", ⟨[.one, .few, .many, .other], [.other],
    [(.one, [1]), (.few, [2, 3, 4, 22, 23, 24, 32, 33, 34]),
     (.many, [0, 5, 6, 7, 8, 9, 10, 11, 12, 13, 14, 15, 16, 17, 18, 19, 20, 25]),
     (.other, [1.5, 2.5])],
    [(.other, [1, 2, 3, 4, 5, 10, 100])]⟩),
  ("uk", ⟨[.one, .few, .many, .other], [.few, .other],
    [(.one, [1, 21, 31, 41]), (.few, [2, 3, 4, 22, 23, 24, 32, 33, 34]),
     (.many, [0, 5, 6, 7, 8, 9, 10, 11, 12, 13, 14, 15, 16, 17, 18, 19, 20]),
     (.other, [1.5, 2.5])],
    [(.few, [3, 23, 33, 43]), (.other, [1, 2, 4, 5, 10, 100])]⟩),
  ("ar", ⟨[.zero, .one, .two, .few, .many, .other], [.other],
    [(.zero, [0]), (.one, [1]), (.two, [2]), (.few, [3, 4, 5, 6, 7, 8, 9, 10, 103, 104, 105]),
     (.many, [11, 12, 13, 14, 15, 16, 17, 18, 19, 99, 111, 112]),
     (.other, [100, 101, 102, 200, 201, 202])],
    [(.other, [1, 2, 3, 4, 5, 10, 100])]⟩),
  ("ja", ⟨[.other], [.other],
    [(.other, [0, 1, 2, 3, 4, 5, 10, 100])],
    [(.other, [1, 2, 3, 4, 5, 10, 100])]⟩),
  ("zh", ⟨[.other], [.other],
    [(.other, [0, 1, 2, 3, 4, 5, 10, 100])],
    [(.other, [1, 2, 3, 4, 5, 10, 100])]⟩),
  ("ko", ⟨[.other], [.other],
    [(.other, [0, 1, 2, 3, 4, 5, 10, 100])],
    [(.other, [1, 2, 3, 4, 5, 10, 100])]⟩),
  ("tr", ⟨[.one, .other], [.other],
    [(.one, [1]), (.other, [0, 2, 3, 4, 5, 10, 100])],
    [(.other, [1, 2, 3, 4, 5, 10, 100])]⟩),
  ("nl", ⟨[.one, .other], [.other],
    [(.one, [1]), (.other, [0, 2, 3, 4, 5, 10, 100])],
    [(.other, [1, 2, 3, 4, 5, 10, 100])]⟩),
  ("sv", ⟨[.one, .other], [.one, .other],
    [(.one, [1]), (.other, [0, 2, 3, 4, 5, 10, 100])],
    [(.one, [1, 2, 21, 22, 31, 32]), (.other, [3, 4, 5, 10, 100])]⟩),
  ("nb", ⟨[.one, .other], [.other],
    [(.one, [1]), (.other, [0, 2, 3, 4, 5, 10, 100])],
    [(.other, [1, 2, 3, 4, 5, 10, 100])]⟩),
  ("da", ⟨[.one, .other], [.other],
    [(.one, [1]), (.other, [0, 2, 3, 4, 5, 10, 100])],
    [(.other, [1, 2, 3, 4, 5, 10, 100])]⟩),
  ("fi", ⟨[.one, .other], [.other],
    [(.one, [1]), (.other, [0, 2, 3, 4, 5, 10, 100])],
    [(.other, [1, 2, 3, 4, 5, 10, 100])]⟩),
  ("cs", ⟨[.one, .few, .many, .other], [.other],
    [(.one, [1]), (.few, [2, 3, 4]), (.many, [1.5, 2.5]),
     (.other, [0, 5, 6, 7, 8, 9, 10, 11, 100])],
    [(.other, [1, 2, 3, 4, 5, 10, 100])]⟩),
  ("he", ⟨[.one, .two, .many, .other], [.other],
    [(.one, [1]), (.two, [2]), (.many, [20, 30, 100]), (.other, [0, 3, 4, 5, 10, 11, 12])],
    [(.other, [1, 2, 3, 4, 5, 10, 100])]⟩),
  ("hi", ⟨[.one, .other], [.one, .two, .few, .many, .other],
    [(.one, [0, 1]), (.other, [2, 3, 4, 5, 10, 100])],
    [(.one, [1]), (.two, [2, 3]), (.few, [4]), (.many, [6]), (.other, [5, 7, 8, 9, 10, 100])]⟩),
  ("th", ⟨[.other], [.other],
    [(.other, [0, 1, 2, 3, 4, 5, 10, 100])],
    [(.other, [1, 2, 3, 4, 5, 10, 100])]⟩),
  ("vi", ⟨[.other], [.one, .other],
    [(.other, [0, 1, 2, 3, 4, 5, 10, 100])],
    [(.one, [1]), (.other, [2, 3, 4, 5, 10, 100])]⟩)]
/-- Embedding of `DEFAULT_RULES` for unknown languages. -/
def DEFAULT_RULES : PluralRuleSet :=
  ⟨[.one, .other], [.other],
   [(.one, [1]), (.other, [0, 2, 3, 4, 5, 10, 100])],
   [(.other, [1, 2, 3, 4, 5, 10, 100])]⟩
/-- First-match association-list lookup, modelling JavaScript object/`Map`
indexing (keys are unique in all the maps the code builds). -/
def jsMapGet {K V : Type} [DecidableEq K] : List (K × V) → K → Option V
  | [], _ => none
  | (k, v) :: rest, key => if k = key then some v else jsMapGet rest key
/-- ASCII lowercasing, modelling `String.prototype.toLowerCase` on the
language-tag alphabet. -/
def jsToLowerCase (s : String) : String :=
  String.mk (s.data.map Char.toLower)
/-- Normalization applied by `getPluralRules`: lowercase, then the text before
the first `-` (JavaScript `split('-')[0]`). -/
def normalizeLanguageTag (languageCode : String) : String :=
  String.mk ((jsToLowerCase languageCode).data.takeWhile (fun c => c ≠ '-'))
/-- Own property keys of `Object.prototype`: a JavaScript plain-object index
`obj[key]` that misses every own key of `obj` continues along the prototype
chain and, for these keys, returns the inherited value (a function or
`Object.prototype` itself) instead of `undefined`.  After the lowercasing in
`getPluralRules` only the all-lowercase keys `constructor` and `__proto__`
remain reachable, but the index itself is modelled for the full list. -/
def OBJECT_PROTOTYPE_KEYS : List String :=
  ["constructor", "hasOwnProperty", "isPrototypeOf", "propertyIsEnumerable",
   "toLocaleString", "toString", "valueOf", "__proto__",
   "__defineGetter__", "__defineSetter__", "__lookupGetter__", "__lookupSetter__"]

/-- A value the expression `PLURAL_RULES[normalized] ?? DEFAULT_RULES` can
evaluate to: a genuine rule set (own table entry or the default), or a value
leaked from `Object.prototype` — truthy, so `??` does not replace it, and not
a rule set: reading `cardinalCategories` off it yields `undefined`. -/
inductive JsRuleValue where
  | ruleSet (r : PluralRuleSet)
  | protoLeak (key : String)
deriving DecidableEq

/-- Embedding of the plain-object index `PLURAL_RULES[key]`: own keys first,
then the `Object.prototype` chain; `none` is `undefined`. -/
def jsObjIndex (m : List (String × PluralRuleSet)) (key : String) : Option JsRuleValue :=
  match jsMapGet m key with
  | some r => some (.ruleSet r)
  | none => if key ∈ OBJECT_PROTOTYPE_KEYS then some (.protoLeak key) else none

/-- Embedding of `getPluralRules`, including the prototype-chain behaviour of
the object index: a leaked `Object.prototype` value is truthy, so the `??`
fallback to `DEFAULT_RULES` does not fire for it. -/
def getPluralRules (languageCode : String) : JsRuleValue :=
  let normalized := normalizeLanguageTag languageCode
  if normalized = "" then .ruleSet DEFAULT_RULES
  else (jsObjIndex PLURAL_RULES normalized).getD (.ruleSet DEFAULT_RULES)

/-- Embedding of `getCardinalCategories`
(`getPluralRules(languageCode).cardinalCategories`).  On a leaked
`Object.prototype` value the source expression yields `undefined` (and the
caller iterating it would throw); that case is modelled as the empty list —
a declared choice no theorem depends on. -/
def getCardinalCategories (languageCode : String) : List PluralCategory :=
  match getPluralRules languageCode with
  | .ruleSet r => r.cardinalCategories
  | .protoLeak _ => []

/-- Embedding of `getOrdinalCategories`, with the same modelling of the
leaked-value case as `getCardinalCategories`. -/
def getOrdinalCategories (languageCode : String) : List PluralCategory :=
  match getPluralRules languageCode with
  | .ruleSet r => r.ordinalCategories
  | .protoLeak _ => []
/-- Embedding of `ReconstructOptions` (all fields optional in the source). -/
structure ReconstructOptions where
  targetLanguage : Option String
  validateCategories : Option Bool
  preserveExactMatches : Option Bool
deriving DecidableEq
/-- Response with translated plural forms (`PluralTranslationResponse`); the
source field `variable` is a reserved word in Lean and is embedded as
`varName`. -/
structure PluralTranslationResponse where
  varName : String
  translations : List PluralVariant
deriving DecidableEq
/-- Response with translated select options (`SelectTranslationResponse`). -/
structure SelectTranslationResponse where
  varName : String
  translations : List SelectOption
deriving DecidableEq
/-- The translations bag passed to `reconstructICUMessage`: text by element
index, plural and select translations by variable name. -/
structure ICUTranslations where
  text : Option (List (Nat × String))
  plurals : Option (List (String × PluralTranslationResponse))
  selects : Option (List (String × SelectTranslationResponse))
/-- Truthiness of an optional string (JavaScript `!s` is true for both
`undefined` and the empty string). -/
def strOptFalsy : Option String → Bool
  | none => true
  | some s => s = ""
/-- Embedding of `reconstructArgument`. -/
def reconstructArgument (name : String) (argType format : Option String) : String :=
  if strOptFalsy argType then "\x7b" ++ name ++ "\x7d"
  else if strOptFalsy format then "\x7b" ++ name ++ ", " ++ argType.getD "" ++ "\x7d"
  else "\x7b" ++ name ++ ", " ++ argType.getD "" ++ ", " ++ format.getD "" ++ "\x7d"
/-- Test for an exact-match category, `category.startsWith('=')` in the
source. -/
def isExactCategory (s : String) : Bool :=
  match s.data with
  | c :: _ => c = '='
  | [] => false
/-- The fixed canonical `categoryOrder` array of the comparator. -/
def categoryOrderList : List String :=
  ["zero", "one", "two", "few", "many", "other"]
/-- JavaScript `Array.prototype.indexOf` (`-1` when absent). -/
def jsIndexOf : List String → String → Int
  | [], _ => -1
  | x :: xs, s =>
    if x = s then 0
    else
      let r := jsIndexOf xs s
      if r = -1 then -1 else r + 1
/-- Lexicographic code-point order on character lists. -/
def charListLt : List Char → List Char → Bool
  | [], [] => false
  | [], _ :: _ => true
  | _ :: _, [] => false
  | a :: as, b :: bs => if a < b then true else if b < a then false else charListLt as bs
/-- Code-point comparison standing in for `String.prototype.localeCompare`
(only the sign is ever used by the sort). -/
def localeCompare (a b : String) : Int :=
  if charListLt a.data b.data then -1 else if charListLt b.data a.data then 1 else 0
/-- Embedding of the comparator passed to `result.sort` in
`validatePluralVariants`. -/
def compareVariants (a b : PluralVariant) : Int :=
  let aIsExact := isExactCategory a.category
  let bIsExact := isExactCategory b.category
  if aIsExact && !bIsExact then -1
  else if !aIsExact && bIsExact then 1
  else
    let aIndex := jsIndexOf categoryOrderList a.category
    let bIndex := jsIndexOf categoryOrderList b.category
    if aIndex = -1 && bIndex = -1 then localeCompare a.category b.category
    else if aIndex = -1 then 1
    else if bIndex = -1 then -1
    else aIndex - bIndex
/-- Stable insertion used to model `Array.prototype.sort` (which is specified
stable): a new element goes after every element that does not compare
strictly greater. -/
def insertSortedVariant (x : PluralVariant) : List PluralVariant → List PluralVariant
  | [] => [x]
  | y :: ys =>
    if compareVariants y x ≤ 0 then y :: insertSortedVariant x ys
    else x :: y :: ys
/-- Stable comparator sort modelling `result.sort(comparator)`. -/
def jsSortVariants (l : List PluralVariant) : List PluralVariant :=
  l.foldl (fun acc x => insertSortedVariant x acc) []
/-- Embedding of `validatePluralVariants`: keep the given variants, synthesize
an `other` variant from the first variant when missing, synthesize every
missing required category from the `other` text (the synthesized `other` is
not recorded in `existingCategories`, exactly as in the source), then sort
with the comparator. -/
def validatePluralVariants (variants : List PluralVariant) (targetLanguage : String)
    (isOrdinal : Bool) : List PluralVariant :=
  let requiredCategories :=
    (if isOrdinal then getOrdinalCategories targetLanguage
     else getCardinalCategories targetLanguage).map PluralCategory.asString
  let existingCategories := variants.map (fun v => v.category)
  let result1 :=
    if existingCategories.contains "other" then variants
    else
      match variants with
      | [] => variants
      | fb :: _ => variants ++ [⟨"other", fb.text⟩]
  let otherVariant := result1.find? (fun v => v.category = "other")
  let result2 := requiredCategories.foldl
    (fun acc category =>
      if existingCategories.contains category then acc
      else acc ++ [⟨category, (otherVariant.map (fun v => v.text)).getD ""⟩])
    result1
  jsSortVariants result2
/-- Embedding of `reconstructPlural`. -/
def reconstructPlural (name : String) (variants : List PluralVariant) (offset : Option Int)
    (options : Option ReconstructOptions) : String :=
  let validatedVariants :=
    if (options.bind (fun o => o.validateCategories)).getD false then
      validatePluralVariants variants ((options.bind (fun o => o.targetLanguage)).getD "en") false
    else variants
  let base := "\x7b" ++ name ++ ", plural,"
  let base2 :=
    match offset with
    | some o => if 0 < o then base ++ " offset:" ++ toString o else base
    | none => base
  (validatedVariants.foldl
    (fun acc v => acc ++ " " ++ v.category ++ " \x7b" ++ v.text ++ "\x7d") base2) ++ "\x7d"
/-- Embedding of `reconstructSelectordinal`. -/
def reconstructSelectordinal (name : String) (variants : List PluralVariant)
    (options : Option ReconstructOptions) : String :=
  let validatedVariants :=
    if (options.bind (fun o => o.validateCategories)).getD false then
      validatePluralVariants variants ((options.bind (fun o => o.targetLanguage)).getD "en") true
    else variants
  let base := "\x7b" ++ name ++ ", selectordinal,"
  (validatedVariants.foldl
    (fun acc v => acc ++ " " ++ v.category ++ " \x7b" ++ v.text ++ "\x7d") base) ++ "\x7d"
/-- Embedding of `reconstructSelect`. -/
def reconstructSelect (name : String) (options : List SelectOption) : String :=
  let base := "\x7b" ++ name ++ ", select,"
  (options.foldl
    (fun acc o => acc ++ " " ++ o.key ++ " \x7b" ++ o.value ++ "\x7d") base) ++ "\x7d"
/-- Embedding of the element loop of `reconstructICUMessage`: each element is
rendered and concatenated; the index is used only for text translations. -/
def reconstructElems (translations : ICUTranslations) (options : Option ReconstructOptions) :
    Nat → List ICUElement → String
  | _, [] => ""
  | i, e :: es =>
    let piece :=
      match e with
      | .text v _ _ => (translations.text.bind (fun m => jsMapGet m i)).getD v
      | .argument n aty fmt _ _ => reconstructArgument n aty fmt
      | .plural n off vs _ _ =>
        match translations.plurals.bind (fun m => jsMapGet m n) with
        | some tr => reconstructPlural n tr.translations off options
        | none => reconstructPlural n vs off options
      | .selectordinal n vs _ _ =>
        match translations.plurals.bind (fun m => jsMapGet m n) with
        | some tr => reconstructSelectordinal n tr.translations options
        | none => reconstructSelectordinal n vs options
      | .select n opts _ _ =>
        match translations.selects.bind (fun m => jsMapGet m n) with
        | some tr => reconstructSelect n tr.translations
        | none => reconstructSelect n opts
    piece ++ reconstructElems translations options (i + 1) es
/-- Embedding of `reconstructICUMessage`. -/
def reconstructICUMessage (parsed : ParsedICUMessage) (translations : ICUTranslations)
    (options : Option ReconstructOptions) : String :=
  reconstructElems translations options 0 parsed.elements
/-- One extracted translatable segment of `extractTextSegments`. -/
structure TextSegment where
  index : Nat
  text : String
  context : Option String
deriving DecidableEq
/-- Per-element segment list used by the body of the `extractTextSegments`
loop. -/
def segmentsOfElement (i : Nat) (e : ICUElement) : List TextSegment :=
  match e with
  | .text v _ _ => [⟨i, v, none⟩]
  | .argument _ _ _ _ _ => []
  | .plural n _ vs _ _ =>
    vs.map (fun v =>
      ⟨i, v.text, some ("Plural form \"" ++ v.category ++ "\" for variable \x7b" ++ n ++ "\x7d")⟩)
  | .selectordinal n vs _ _ =>
    vs.map (fun v =>
      ⟨i, v.text, some ("Plural form \"" ++ v.category ++ "\" for variable \x7b" ++ n ++ "\x7d")⟩)
  | .select n opts _ _ =>
    opts.map (fun o =>
      ⟨i, o.value, some ("Select option \"" ++ o.key ++ "\" for variable \x7b" ++ n ++ "\x7d")⟩)
/-- Embedding of `extractTextSegments`: an indexed fold that pushes the
segments of each element in element order. -/
def extractTextSegments (parsed : ParsedICUMessage) : List TextSegment :=
  (parsed.elements.foldl
    (fun (st : Nat × List TextSegment) e => (st.1 + 1, st.2 ++ segmentsOfElement st.1 e))
    (0, [])).2
/-- The successfully parsed message of a string, with a default record when
the parse fails or runs out of fuel (used only to name concrete parse
results). -/
def parseOk (s : String) (fuel : Nat) : ParsedICUMessage :=
  match parseICUMessage s fuel with
  | some (.ok p) => p
  | _ => ⟨"", [], false, false, [], false⟩
/-- The empty translations bag (`{}` at the call site). -/
def emptyTranslations : ICUTranslations := ⟨none, none, none⟩
/-- Name carried by an element, when it has one. -/
def elementName : ICUElement → Option String
  | .text _ _ _ => none
  | .argument n _ _ _ _ => some n
  | .plural n _ _ _ _ => some n
  | .select n _ _ _ => some n
  | .selectordinal n _ _ _ => some n
/-- Categories of all plural variants of a parsed message, in order. -/
def pluralCategoriesOf (p : ParsedICUMessage) : List String :=
  p.elements.flatMap (fun e =>
    match e with
    | .plural _ _ vs _ _ => vs.map (fun v => v.category)
    | _ => [])
/-- Select options of a parsed message, in order. -/
def selectOptionsOf (p : ParsedICUMessage) : List SelectOption :=
  p.elements.flatMap (fun e =>
    match e with
    | .select _ opts _ _ => opts
    | _ => [])
/-- A single unmatched closing brace, the input on which the parse loop makes
no progress. -/
def strayCloseBrace : String := "\x7d"
/-- The standard ICU plural form, written with a comma after the keyword and
no offset clause. -/
def commaPluralMessage : String :=
  "\x7bcount, plural, one \x7bOne item\x7d other \x7b# items\x7d\x7d"
/-- Scenario B message: a plural with an offset clause and an exact match. -/
def scenarioBMessage : String :=
  "\x7bcount, plural, offset:1 =0 \x7bNo items\x7d one \x7bOne item\x7d other \x7b# items\x7d\x7d"
/-- Parse result of the scenario B message. -/
def scenarioBParsed : ParsedICUMessage := parseOk scenarioBMessage 100
/-- Translated plural variants for `count` supplying only `one` and `other`. -/
def ruTranslations : ICUTranslations :=
  ⟨none, some [("count", ⟨"count", [⟨"one", "ONE-RU"⟩, ⟨"other", "OTHER-RU"⟩]⟩)], none⟩
/-- Reconstruction options for target language `ru` with category validation
on. -/
def ruOptions : Option ReconstructOptions := some ⟨some "ru", some true, none⟩
/-- The string the code actually produces in scenario C: four variants, the
original `=0` exact match is gone. -/
def scenarioCOutput : String :=
  "\x7bcount, plural, offset:1 one \x7bONE-RU\x7d few \x7bOTHER-RU\x7d many \x7bOTHER-RU\x7d other \x7bOTHER-RU\x7d\x7d"
/-- Two quote characters, the ICU escape for one literal quote. -/
def quoteMessage : String := "\x27\x27"
/-- Parse result of the quote message. -/
def quoteParsed : ParsedICUMessage := parseOk quoteMessage 3

/-- A select message whose options are `a` then `b` in source order. -/
def selectOrderMessage : String := "\x7bs, select, a \x7bA\x7d b \x7bB\x7d\x7d"

/-- Parse result of the select-order message. -/
def selectOrderParsed : ParsedICUMessage := parseOk selectOrderMessage 100

/-- Caller-supplied select translations listing `b` before `a`. -/
def selectOrderTranslations : ICUTranslations :=
  ⟨none, none, some [("s", ⟨"s", [⟨"b", "TB"⟩, ⟨"a", "TA"⟩]⟩)]⟩

/-- Rendering of a select option list exactly as the specification words it:
one ` key \x7bvalue\x7d` group per translated option, in the caller's list
order. -/
def renderOptionsSpec : List SelectOption → String
  | [] => ""
  | o :: os => " " ++ o.key ++ " \x7b" ++ o.value ++ "\x7d" ++ renderOptionsSpec os

/-- Specification-side rendering of a whole select element from the caller's
translated options. -/
def selectRenderSpec (name : String) (opts : List SelectOption) : String :=
  "\x7b" ++ name ++ ", select," ++ renderOptionsSpec opts ++ "\x7d"

/-- Specification-side description of `extractTextSegments`: for the element
at position `i` of `parsed.elements`, exactly one entry per `Text` element
(text is its value, no context), one entry per plural/selectordinal variant
(text is the variant text, context `Plural form "<category>" for variable
\x7b<name>\x7d`), and one entry per select option (text is the option value,
context `Select option "<key>" for variable \x7b<name>\x7d`), joined in
element order. -/
def extractTextSegmentsSpec (parsed : ParsedICUMessage) : List TextSegment :=
  (List.enumFrom 0 parsed.elements).flatMap (fun q =>
    match q.2 with
    | .text value _ _ => [⟨q.1, value, none⟩]
    | .argument _ _ _ _ _ => []
    | .plural name _ variants _ _ =>
      variants.map (fun v =>
        ⟨q.1, v.text,
         some ("Plural form \"" ++ v.category ++ "\" for variable \x7b" ++ name ++ "\x7d")⟩)
    | .selectordinal name variants _ _ =>
      variants.map (fun v =>
        ⟨q.1, v.text,
         some ("Plural form \"" ++ v.category ++ "\" for variable \x7b" ++ name ++ "\x7d")⟩)
    | .select name opts _ _ =>
      opts.map (fun o =>
        ⟨q.1, o.value,
         some ("Select option \"" ++ o.key ++ "\" for variable \x7b" ++ name ++ "\x7d")⟩))

/-- Well-formedness of one rule set as the specification states it: both
category lists contain `other` and are non-empty. -/
def ruleSetOk (r : PluralRuleSet) : Prop :=
  PluralCategory.other ∈ r.cardinalCategories ∧
  PluralCategory.other ∈ r.ordinalCategories ∧
  r.cardinalCategories ≠ [] ∧
  r.ordinalCategories ≠ []

instance (r : PluralRuleSet) : Decidable (ruleSetOk r) := by
  unfold ruleSetOk
  infer_instance

/-- Non-strict comparator order on variants (`compareVariants` at most
zero). -/
def variantLe (a b : PluralVariant) : Prop := compareVariants a b ≤ 0

/-- The block ordering the validated variant list actually satisfies: every
exact-match variant precedes every non-exact variant; exact-match variants
are ordered lexicographically among themselves (not by input order); CLDR
categories follow in the canonical `zero, one, two, few, many, other` order;
unrecognized categories come last, ordered lexicographically. -/
def variantBlockOrder (a b : PluralVariant) : Prop :=
  (isExactCategory a.category = true ∧ isExactCategory b.category = false) ∨
  (isExactCategory a.category = true ∧ isExactCategory b.category = true ∧
    charListLt b.category.data a.category.data = false) ∨
  (isExactCategory a.category = false ∧ isExactCategory b.category = false ∧
    ((jsIndexOf categoryOrderList a.category ≠ -1 ∧ jsIndexOf categoryOrderList b.category ≠ -1 ∧
      jsIndexOf categoryOrderList a.category ≤ jsIndexOf categoryOrderList b.category) ∨
     (jsIndexOf categoryOrderList a.category ≠ -1 ∧
      jsIndexOf categoryOrderList b.category = -1) ∨
     (jsIndexOf categoryOrderList a.category = -1 ∧ jsIndexOf categoryOrderList b.category = -1 ∧
      charListLt b.category.data a.category.data = false)))

/-- A select message whose option `a` carries a nested argument in its braced
text. -/
def nestedSelectMessage : String := "\x7bg, select, a \x7b\x7bname\x7d\x7d other \x7bx\x7d\x7d"

/-- Parse result of the nested select message. -/
def nestedSelectParsed : ParsedICUMessage := parseOk nestedSelectMessage 100

/-- The nested option text on its own. -/
def innerArgMessage : String := "\x7bname\x7d"

/-- Parse result of the nested option text. -/
def innerArgParsed : ParsedICUMessage := parseOk innerArgMessage 10

/-- A message with one top-level argument, used to witness the amended C4. -/
def helloMessage : String := "Hello, \x7bname\x7d!"

/-- Parse result of the hello message. -/
def helloParsed : ParsedICUMessage := parseOk helloMessage 10

/-- A plain character: not a brace and not a quote, so the text scanner
copies it verbatim. -/
def plainChar (c : Char) : Bool :=
  !(c = lbrace || c = rbrace || c = squote)

/-- Canonical message items for the round-trip property: a plain text run or
a bare argument `\x7bname\x7d`. -/
inductive SimpleItem where
  | plain (s : String)
  | arg (name : String)
deriving DecidableEq

/-- Rendering of one canonical item. -/
def renderItem : SimpleItem → String
  | .plain s => s
  | .arg n => "\x7b" ++ n ++ "\x7d"

/-- Rendering of a canonical item list. -/
def renderItems : List SimpleItem → String
  | [] => ""
  | it :: its => renderItem it ++ renderItems its

/-- Well-formedness of one canonical item: non-empty plain text of plain
characters, or a non-empty identifier name. -/
def itemOk : SimpleItem → Bool
  | .plain s => !s.data.isEmpty && s.data.all plainChar
  | .arg n => !n.data.isEmpty && n.data.all identChar

/-- Adjacency constraint: two consecutive plain runs would be merged by the
parser, so a canonical list never has them. -/
def notBothPlain : SimpleItem → List SimpleItem → Bool
  | .plain _, .plain _ :: _ => false
  | _, _ => true

/-- Well-formedness of a canonical item list. -/
def itemsWf : List SimpleItem → Bool
  | [] => true
  | it :: its => itemOk it && notBothPlain it its && itemsWf its

/-- Correspondence between a canonical item and the element the parser
produces for it (the character span is existential). -/
def itemMatches : SimpleItem → ICUElement → Prop
  | .plain s, e => ∃ st sp, e = .text s st sp
  | .arg n, e => ∃ st sp, e = .argument n none none st sp

/-- Canonical item list used to witness the round-trip theorem. -/
def roundTripDemoItems : List SimpleItem :=
  [.plain "Hello, ", .arg "name", .plain "!"]
/-- Claim C1: refuted as stated — on the input consisting of one unmatched
closing brace the main parse loop consumes nothing and never terminates, so
for every fuel bound the embedded loop is still running (`none`); the code
neither returns a parse result nor raises a `ParseError` on this input. -/
theorem c1_parser_nontermination_on_stray_close_brace :
    ∀ fuel : Nat, parseICUMessage strayCloseBrace fuel = none := by
  intro fuel
  induction fuel with
  | zero => rfl
  | succ n ih =>
    have h : parseICUMessage strayCloseBrace (n + 1) = parseICUMessage strayCloseBrace n := rfl
    rw [h]
    exact ih
/-- Claim C2: refuted as stated — the offset probe consumes the category
identifier `one` after the comma and does not restore the cursor, so the
variant loop finds `\x7b` where a category should be and the parse of the
standard comma form raises `Expected plural category` at offset 20 instead of
succeeding. -/
theorem c2_plural_comma_without_offset_raises :
    parseICUMessage commaPluralMessage 100 =
      some (.error ⟨"Expected plural category", commaPluralMessage, some 20⟩) := by
  rfl
/-- Claim C3: refuted as stated — reconstructing the scenario B plural for
`ru` with category validation and a translated set `\x7bone, other\x7d`
replaces the variant list wholesale, so the output has exactly the four
variants `one, few, many, other` and no `=0` variant at all (the claim says
five variants with `=0` preserved). -/
theorem c3_exact_match_dropped_counterexample :
    parseICUMessage scenarioBMessage 100 = some (.ok scenarioBParsed) ∧
    pluralCategoriesOf scenarioBParsed = ["=0", "one", "other"] ∧
    reconstructICUMessage scenarioBParsed ruTranslations ruOptions = scenarioCOutput ∧
    pluralCategoriesOf (parseOk scenarioCOutput 200) = ["one", "few", "many", "other"] ∧
    "=0" ∉ pluralCategoriesOf (parseOk scenarioCOutput 200) :=
  ⟨rfl, rfl, rfl, rfl, by decide⟩
/-- Claim C3 (amended): the reconstruction yields exactly four variants
`one, few, many, other` (canonical order), where the synthesized `few` and
`many` carry the translated `other` text; the original `=0` variant is
dropped because the translated variant list replaces the original list
wholesale. -/
theorem c3_reconstruct_ru_four_variants :
    validatePluralVariants [⟨"one", "ONE-RU"⟩, ⟨"other", "OTHER-RU"⟩] "ru" false =
      [⟨"one", "ONE-RU"⟩, ⟨"few", "OTHER-RU"⟩, ⟨"many", "OTHER-RU"⟩, ⟨"other", "OTHER-RU"⟩] ∧
    reconstructICUMessage scenarioBParsed ruTranslations ruOptions = scenarioCOutput :=
  ⟨rfl, rfl⟩
/-- Claim C5: refuted as stated — the message consisting of the ICU escape
`\x27\x27` contains no plural or select construct, parses to the single text
element holding one literal quote, and reconstructs to that single quote,
which differs from the original message. -/
theorem c5_quote_roundtrip_counterexample :
    parseICUMessage quoteMessage 3 = some (.ok quoteParsed) ∧
    quoteParsed.hasPlurals = false ∧
    quoteParsed.hasSelect = false ∧
    reconstructICUMessage quoteParsed emptyTranslations none = "\x27" ∧
    ("\x27" : String) ≠ quoteMessage :=
  ⟨rfl, rfl, rfl, rfl, by decide⟩

/-- Claim C7: refuted as stated — with a translation entry present the select
options are emitted in the caller's list order (`b` before `a` here), not in
the original element's option order (`a` before `b`). -/
theorem c7_select_translation_order_counterexample :
    parseICUMessage selectOrderMessage 100 = some (.ok selectOrderParsed) ∧
    selectOptionsOf selectOrderParsed = [⟨"a", "A"⟩, ⟨"b", "B"⟩] ∧
    reconstructICUMessage selectOrderParsed selectOrderTranslations none =
      "\x7bs, select, b \x7bTB\x7d a \x7bTA\x7d\x7d" ∧
    ("\x7bs, select, b \x7bTB\x7d a \x7bTA\x7d\x7d" : String) ≠
      "\x7bs, select, a \x7bTA\x7d b \x7bTB\x7d\x7d" :=
  ⟨rfl, rfl, rfl, by decide⟩

/-- The select reconstruction fold appends exactly the specification-side
rendering of the option list to its seed string. -/
theorem foldl_renderOptionsSpec (os : List SelectOption) : ∀ base : String,
    os.foldl (fun acc o => acc ++ " " ++ o.key ++ " \x7b" ++ o.value ++ "\x7d") base
      = base ++ renderOptionsSpec os := by
  induction os with
  | nil =>
    intro base
    simp [renderOptionsSpec]
  | cons o os ih =>
    intro base
    simp only [List.foldl_cons, renderOptionsSpec, ih]
    simp [String.append_assoc]

/-- Claim C7 (amended): when a translation entry exists for a select
variable, the output contains exactly the caller's translated options, in the
caller's list order (not the original element's order), each rendered as
` key \x7bvalue\x7d`; the original options do not influence the output at
all, so any option the caller omitted is omitted. -/
theorem c7_select_translation_replaces_options :
    ∀ (origStr : String) (name : String) (origOpts : List SelectOption) (st sp : Nat)
      (txt : Option (List (Nat × String)))
      (plu : Option (List (String × PluralTranslationResponse)))
      (respName : String) (trOpts : List SelectOption)
      (hp hs ic : Bool) (vars : List String) (o : Option ReconstructOptions),
    reconstructICUMessage ⟨origStr, [.select name origOpts st sp], hp, hs, vars, ic⟩
        ⟨txt, plu, some [(name, ⟨respName, trOpts⟩)]⟩ o
      = selectRenderSpec name trOpts := by
  intro origStr name origOpts st sp txt plu respName trOpts hp hs ic vars o
  simp only [reconstructICUMessage, reconstructElems, Option.some_bind, jsMapGet,
    eq_self_iff_true, if_true, reconstructSelect, String.append_empty]
  rw [foldl_renderOptionsSpec]
  simp [selectRenderSpec, String.append_assoc]

/-- The indexed fold of `extractTextSegments` appends, to its accumulator,
the per-element segments of the remaining elements enumerated from the
running index. -/
theorem extractTextSegments_foldl (es : List ICUElement) : ∀ (i : Nat) (acc : List TextSegment),
    (es.foldl (fun (st : Nat × List TextSegment) e => (st.1 + 1, st.2 ++ segmentsOfElement st.1 e))
        (i, acc)).2
      = acc ++ (List.enumFrom i es).flatMap (fun q => segmentsOfElement q.1 q.2) := by
  induction es with
  | nil =>
    intro i acc
    simp [List.enumFrom]
  | cons e es ih =>
    intro i acc
    simp only [List.foldl_cons, List.enumFrom, List.flatMap_cons, ih]
    simp [List.append_assoc]

/-- Claim C9: confirmed — `extractTextSegments` returns, in element order,
exactly one entry per `Text` element (its value, no context), one entry per
plural/selectordinal variant with the `Plural form` context, and one entry
per select option with the `Select option` context, each entry's index being
the owning element's position in `parsed.elements`. -/
theorem c9_extract_segments_spec :
    ∀ parsed : ParsedICUMessage, extractTextSegments parsed = extractTextSegmentsSpec parsed := by
  intro parsed
  unfold extractTextSegments extractTextSegmentsSpec
  rw [extractTextSegments_foldl]
  have h : ∀ q : Nat × ICUElement,
      (match q.2 with
        | .text value _ _ => [(⟨q.1, value, none⟩ : TextSegment)]
        | .argument _ _ _ _ _ => []
        | .plural name _ variants _ _ =>
          variants.map (fun v =>
            ⟨q.1, v.text,
             some ("Plural form \"" ++ v.category ++ "\" for variable \x7b" ++ name ++ "\x7d")⟩)
        | .selectordinal name variants _ _ =>
          variants.map (fun v =>
            ⟨q.1, v.text,
             some ("Plural form \"" ++ v.category ++ "\" for variable \x7b" ++ name ++ "\x7d")⟩)
        | .select name opts _ _ =>
          opts.map (fun o =>
            ⟨q.1, o.value,
             some ("Select option \"" ++ o.key ++ "\" for variable \x7b" ++ name ++ "\x7d")⟩))
        = segmentsOfElement q.1 q.2 := by
    intro q
    rcases q with ⟨i, e⟩
    cases e <;> rfl
  simp only [h]
  simp

/-- Reconstruction of a plural element does not depend on the
`preserveExactMatches` field. -/
theorem reconstructPlural_pe (n : String) (vs : List PluralVariant) (off : Option Int)
    (lang : Option String) (vc : Option Bool) (pe1 pe2 : Option Bool) :
    reconstructPlural n vs off (some ⟨lang, vc, pe1⟩)
      = reconstructPlural n vs off (some ⟨lang, vc, pe2⟩) := rfl

/-- Reconstruction of a selectordinal element does not depend on the
`preserveExactMatches` field. -/
theorem reconstructSelectordinal_pe (n : String) (vs : List PluralVariant)
    (lang : Option String) (vc : Option Bool) (pe1 pe2 : Option Bool) :
    reconstructSelectordinal n vs (some ⟨lang, vc, pe1⟩)
      = reconstructSelectordinal n vs (some ⟨lang, vc, pe2⟩) := rfl

/-- The element-reconstruction loop never inspects the
`preserveExactMatches` field of the options record. -/
theorem reconstructElems_ignores_preserveExactMatches
    (t : ICUTranslations) (lang : Option String) (vc : Option Bool) (pe1 pe2 : Option Bool) :
    ∀ (es : List ICUElement) (i : Nat),
    reconstructElems t (some ⟨lang, vc, pe1⟩) i es
      = reconstructElems t (some ⟨lang, vc, pe2⟩) i es := by
  intro es
  induction es with
  | nil => intro i; rfl
  | cons e es ih =>
    intro i
    cases e with
    | text v st sp =>
      simp only [reconstructElems]
      rw [ih]
    | argument n a f st sp =>
      simp only [reconstructElems]
      rw [ih]
    | plural n off vs st sp =>
      simp only [reconstructElems]
      rw [ih]
      cases htr : t.plurals.bind (fun m => jsMapGet m n) with
      | none =>
        simp only [htr]
        rw [reconstructPlural_pe n vs off lang vc pe1 pe2]
      | some tr =>
        simp only [htr]
        rw [reconstructPlural_pe n tr.translations off lang vc pe1 pe2]
    | select n opts st sp =>
      simp only [reconstructElems]
      rw [ih]
    | selectordinal n vs st sp =>
      simp only [reconstructElems]
      rw [ih]
      cases htr : t.plurals.bind (fun m => jsMapGet m n) with
      | none =>
        simp only [htr]
        rw [reconstructSelectordinal_pe n vs lang vc pe1 pe2]
      | some tr =>
        simp only [htr]
        rw [reconstructSelectordinal_pe n tr.translations lang vc pe1 pe2]

/-- Claim C10: confirmed — the reconstruction result is identical whether
`options.preserveExactMatches` is `some true`, `some false` or absent, for
every parsed message, translations bag and choice of the other option
fields: no reconstruction path reads that field. -/
theorem c10_preserve_exact_matches_unread :
    ∀ (parsed : ParsedICUMessage) (translations : ICUTranslations)
      (lang : Option String) (vc : Option Bool) (pe1 pe2 : Option Bool),
    reconstructICUMessage parsed translations (some ⟨lang, vc, pe1⟩)
      = reconstructICUMessage parsed translations (some ⟨lang, vc, pe2⟩) := by
  intro parsed translations lang vc pe1 pe2
  exact reconstructElems_ignores_preserveExactMatches translations lang vc pe1 pe2
    parsed.elements 0

/-- A successful association-list lookup returns a pair of the list. -/
theorem jsMapGet_mem {K V : Type} [DecidableEq K] :
    ∀ (l : List (K × V)) (k : K) (v : V), jsMapGet l k = some v → (k, v) ∈ l := by
  intro l
  induction l with
  | nil =>
    intro k v h
    cases h
  | cons p rest ih =>
    intro k v h
    rcases p with ⟨k0, v0⟩
    by_cases hk : k0 = k
    · subst hk
      simp only [jsMapGet, eq_self_iff_true, if_true, Option.some.injEq] at h
      subst h
      exact List.mem_cons_self _ _
    · simp only [jsMapGet, if_neg hk] at h
      exact List.mem_cons_of_mem _ (ih k v h)

/-- Every rule set stored in the table is well formed. -/
theorem plural_rules_all_ok : ∀ p ∈ PLURAL_RULES, ruleSetOk p.2 := by decide

/-- The default rule set is well formed. -/
theorem default_rules_ok : ruleSetOk DEFAULT_RULES := by decide

/-- Claim C8: refuted as stated — the plain-object index inherits from
`Object.prototype`, so for the tag `constructor` (likewise `__proto__`) the
own-key lookup misses and yet the index returns the inherited truthy value:
the `??` fallback never fires, `getPluralRules` returns a leaked non-rule-set
instead of the default rule set, and reading the category lists off it yields
`undefined` — there is no `other` category and no non-empty list there. -/
theorem c8_prototype_leak_counterexample :
    jsMapGet PLURAL_RULES "constructor" = none ∧
    getPluralRules "constructor" = .protoLeak "constructor" ∧
    getPluralRules "constructor" ≠ .ruleSet DEFAULT_RULES ∧
    getCardinalCategories "constructor" = [] ∧
    getOrdinalCategories "constructor" = [] ∧
    getPluralRules "__proto__" = .protoLeak "__proto__" :=
  ⟨rfl, rfl, by decide, rfl, rfl, rfl⟩

/-- Claim C8 (amended): for every language tag whose lowercase primary
subtag is not an `Object.prototype` property key, `getPluralRules` returns
the table entry keyed by that subtag, or the default `\x7bone, other\x7d`
cardinal / `\x7bother\x7d` ordinal rule set when the subtag is unknown or
empty; and every rule set returned on such tags has non-empty cardinal and
ordinal category lists, each containing `other`.  (On the excluded tags the
index leaks the inherited `Object.prototype` value, which is truthy, so the
`??` fallback never fires and the result is not a rule set at all.) -/
theorem c8_plural_rules_lookup_and_default :
    ∀ tag : String, normalizeLanguageTag tag ∉ OBJECT_PROTOTYPE_KEYS →
    (match jsMapGet PLURAL_RULES (normalizeLanguageTag tag) with
      | some r => getPluralRules tag = .ruleSet r
      | none => getPluralRules tag = .ruleSet DEFAULT_RULES) ∧
    ∃ r : PluralRuleSet, getPluralRules tag = .ruleSet r ∧
      PluralCategory.other ∈ r.cardinalCategories ∧
      PluralCategory.other ∈ r.ordinalCategories ∧
      r.cardinalCategories ≠ [] ∧
      r.ordinalCategories ≠ [] := by
  intro tag hproto
  by_cases h0 : normalizeLanguageTag tag = ""
  · have hlk : jsMapGet PLURAL_RULES (normalizeLanguageTag tag) = none := by
      rw [h0]
      decide
    have hget : getPluralRules tag = .ruleSet DEFAULT_RULES := by
      simp [getPluralRules, h0]
    rw [hlk, hget]
    exact ⟨rfl, DEFAULT_RULES, rfl, default_rules_ok.1, default_rules_ok.2.1,
      default_rules_ok.2.2.1, default_rules_ok.2.2.2⟩
  · cases hlk : jsMapGet PLURAL_RULES (normalizeLanguageTag tag) with
    | none =>
      have hget : getPluralRules tag = .ruleSet DEFAULT_RULES := by
        simp [getPluralRules, jsObjIndex, h0, hlk, hproto]
      rw [hget]
      exact ⟨rfl, DEFAULT_RULES, rfl, default_rules_ok.1, default_rules_ok.2.1,
        default_rules_ok.2.2.1, default_rules_ok.2.2.2⟩
    | some r =>
      have hget : getPluralRules tag = .ruleSet r := by
        simp [getPluralRules, jsObjIndex, h0, hlk]
      have hok : ruleSetOk r :=
        plural_rules_all_ok _ (jsMapGet_mem PLURAL_RULES (normalizeLanguageTag tag) r hlk)
      rw [hget]
      exact ⟨rfl, r, rfl, hok.1, hok.2.1, hok.2.2.1, hok.2.2.2⟩

/-- Witness for the amended C8 at the tag `en-US`. -/
theorem c8_plural_rules_lookup_and_default_witness :
    normalizeLanguageTag "en-US" ∉ OBJECT_PROTOTYPE_KEYS ∧
    ((match jsMapGet PLURAL_RULES (normalizeLanguageTag "en-US") with
      | some r => getPluralRules "en-US" = .ruleSet r
      | none => getPluralRules "en-US" = .ruleSet DEFAULT_RULES) ∧
    ∃ r : PluralRuleSet, getPluralRules "en-US" = .ruleSet r ∧
      PluralCategory.other ∈ r.cardinalCategories ∧
      PluralCategory.other ∈ r.ordinalCategories ∧
      r.cardinalCategories ≠ [] ∧
      r.ordinalCategories ≠ []) :=
  ⟨by decide, c8_plural_rules_lookup_and_default "en-US" (by decide)⟩

theorem charListLt_asymm : ∀ a b : List Char, charListLt a b = true → charListLt b a = false := by
  intro a
  induction a with
  | nil =>
    intro b h
    cases b with
    | nil => simp [charListLt] at h
    | cons y ys => simp [charListLt]
  | cons x xs ih =>
    intro b h
    cases b with
    | nil => simp [charListLt] at h
    | cons y ys =>
      simp only [charListLt] at h ⊢
      by_cases hxy : x < y
      · have hyx : ¬ y < x := lt_asymm hxy
        simp [hxy, hyx]
      · by_cases hyx : y < x
        · simp [hxy, hyx] at h
        · simp only [hxy, hyx, if_false] at h ⊢
          exact ih ys h

theorem charListLt_trans :
    ∀ a b c : List Char, charListLt a b = true → charListLt b c = true → charListLt a c = true := by
  intro a
  induction a with
  | nil =>
    intro b c hab hbc
    cases b with
    | nil => simp [charListLt] at hab
    | cons y ys =>
      cases c with
      | nil => simp [charListLt] at hbc
      | cons z zs => simp [charListLt]
  | cons x xs ih =>
    intro b c hab hbc
    cases b with
    | nil => simp [charListLt] at hab
    | cons y ys =>
      cases c with
      | nil => simp [charListLt] at hbc
      | cons z zs =>
        simp only [charListLt] at hab hbc ⊢
        by_cases hxy : x < y
        · by_cases hyz : y < z
          · have hxz : x < z := lt_trans hxy hyz
            simp [hxz]
          · by_cases hzy : z < y
            · simp [hxy, hyz, hzy] at hbc
            · have hyzeq : y = z := le_antisymm (not_lt.mp hzy) (not_lt.mp hyz)
              subst hyzeq
              simp [hxy]
        · by_cases hyx : y < x
          · simp [hxy, hyx] at hab
          · have hxyeq : x = y := le_antisymm (not_lt.mp hyx) (not_lt.mp hxy)
            subst hxyeq
            simp only [lt_irrefl, if_false] at hab
            by_cases hyz : x < z
            · simp [hyz]
            · by_cases hzy : z < x
              · simp [hyz, hzy] at hbc
              · simp only [hyz, hzy, if_false] at hbc ⊢
                exact ih ys zs hab hbc

theorem charListLt_conn :
    ∀ a b : List Char, charListLt a b = false → charListLt b a = false → a = b := by
  intro a
  induction a with
  | nil =>
    intro b hab hba
    cases b with
    | nil => rfl
    | cons y ys => simp [charListLt] at hab
  | cons x xs ih =>
    intro b hab hba
    cases b with
    | nil => simp [charListLt] at hba
    | cons y ys =>
      simp only [charListLt] at hab hba
      by_cases hxy : x < y
      · simp [hxy] at hab
      · by_cases hyx : y < x
        · simp [hxy, hyx] at hba
        · have hxyeq : x = y := le_antisymm (not_lt.mp hyx) (not_lt.mp hxy)
          subst hxyeq
          simp only [lt_irrefl, if_false] at hab hba
          rw [ih ys hab hba]

theorem localeCompare_nonpos (a b : String) :
    localeCompare a b ≤ 0 ↔ charListLt b.data a.data = false := by
  unfold localeCompare
  cases h1 : charListLt a.data b.data
  · cases h2 : charListLt b.data a.data
    · simp
    · simp [h2]
  · have h2 : charListLt b.data a.data = false := charListLt_asymm _ _ h1
    simp [h2]

theorem localeCompare_total (a b : String) :
    localeCompare a b ≤ 0 ∨ localeCompare b a ≤ 0 := by
  rw [localeCompare_nonpos, localeCompare_nonpos]
  cases h1 : charListLt a.data b.data
  · right; rfl
  · left; exact charListLt_asymm _ _ h1

theorem localeCompare_trans (a b c : String) (hab : localeCompare a b ≤ 0)
    (hbc : localeCompare b c ≤ 0) : localeCompare a c ≤ 0 := by
  rw [localeCompare_nonpos] at hab hbc ⊢
  cases hca : charListLt c.data a.data
  · rfl
  · exfalso
    cases hab' : charListLt a.data b.data
    · have : a.data = b.data := charListLt_conn _ _ hab' hab
      rw [this] at hca
      simp [hca] at hbc
    · have : charListLt c.data b.data = true := charListLt_trans _ _ _ hca hab'
      simp [this] at hbc

theorem jsIndexOf_cases : ∀ (l : List String) (s : String),
    jsIndexOf l s = -1 ∨ 0 ≤ jsIndexOf l s := by
  intro l s
  induction l with
  | nil => left; rfl
  | cons x xs ih =>
    by_cases hx : x = s
    · right
      simp [jsIndexOf, hx]
    · rcases ih with h | h
      · left
        simp [jsIndexOf, hx, h]
      · right
        have hne : jsIndexOf xs s ≠ -1 := by omega
        simp only [jsIndexOf, if_neg hx, if_neg hne]
        omega

theorem jsIndexOf_exact (s : String) (h : isExactCategory s = true) :
    jsIndexOf categoryOrderList s = -1 := by
  have hz : "zero" ≠ s := by rintro rfl; exact absurd h (by decide)
  have ho : "one" ≠ s := by rintro rfl; exact absurd h (by decide)
  have ht : "two" ≠ s := by rintro rfl; exact absurd h (by decide)
  have hf : "few" ≠ s := by rintro rfl; exact absurd h (by decide)
  have hm : "many" ≠ s := by rintro rfl; exact absurd h (by decide)
  have hoth : "other" ≠ s := by rintro rfl; exact absurd h (by decide)
  simp [jsIndexOf, categoryOrderList, hz, ho, ht, hf, hm, hoth]

theorem compareVariants_total : ∀ a b : PluralVariant,
    compareVariants a b ≤ 0 ∨ compareVariants b a ≤ 0 := by
  intro a b
  unfold compareVariants
  cases ha : isExactCategory a.category <;> cases hb : isExactCategory b.category <;>
    simp only [Bool.not_true, Bool.not_false, Bool.true_and, Bool.false_and, Bool.and_true,
      Bool.and_false, Bool.and_self, if_true, if_false, ite_true, ite_false]
  · rcases jsIndexOf_cases categoryOrderList a.category with hia | hia <;>
      rcases jsIndexOf_cases categoryOrderList b.category with hib | hib
    · simp only [hia, hib, eq_self_iff_true, and_self, if_true, ite_true, Bool.and_self]
      simp
      exact localeCompare_total _ _
    · have hib' : jsIndexOf categoryOrderList b.category ≠ -1 := by omega
      simp only [hia, hib', if_true, if_false, eq_self_iff_true, decide_True, decide_False,
        Bool.and_false, Bool.false_and, Bool.true_and, Bool.and_true]
      simp [hib']
    · have hia' : jsIndexOf categoryOrderList a.category ≠ -1 := by omega
      simp [hia', hib]
    · have hia' : jsIndexOf categoryOrderList a.category ≠ -1 := by omega
      have hib' : jsIndexOf categoryOrderList b.category ≠ -1 := by omega
      simp [hia', hib']
      omega
  · right; norm_num
  · left; norm_num
  · rw [jsIndexOf_exact _ ha, jsIndexOf_exact _ hb]
    simp
    exact localeCompare_total _ _

theorem compareVariants_trans : ∀ a b c : PluralVariant,
    compareVariants a b ≤ 0 → compareVariants b c ≤ 0 → compareVariants a c ≤ 0 := by
  intro a b c hab hbc
  unfold compareVariants at hab hbc ⊢
  cases ha : isExactCategory a.category <;> cases hb : isExactCategory b.category <;>
    cases hc : isExactCategory c.category <;>
    simp only [ha, hb, hc, Bool.not_true, Bool.not_false, Bool.true_and, Bool.false_and,
      Bool.and_true, Bool.and_false, Bool.and_self, Bool.false_eq_true, Bool.true_eq_false,
      if_true, if_false, ite_true, ite_false] at hab hbc ⊢
  -- remaining goals: handle index-level reasoning case by case
  all_goals try omega
  -- case false false false
  · rcases jsIndexOf_cases categoryOrderList a.category with hia | hia <;>
      rcases jsIndexOf_cases categoryOrderList b.category with hib | hib <;>
      rcases jsIndexOf_cases categoryOrderList c.category with hic | hic
    · simp only [hia, hib, hic] at hab hbc ⊢
      simp at hab hbc ⊢
      exact localeCompare_trans _ _ _ hab hbc
    · have hic' : jsIndexOf categoryOrderList c.category ≠ -1 := by omega
      simp [hia, hib, hic'] at hbc
    · have hib' : jsIndexOf categoryOrderList b.category ≠ -1 := by omega
      simp [hia, hib'] at hab
    · have hib' : jsIndexOf categoryOrderList b.category ≠ -1 := by omega
      simp [hia, hib'] at hab
    · have hia' : jsIndexOf categoryOrderList a.category ≠ -1 := by omega
      simp [hia', hib, hic]
    · have hia' : jsIndexOf categoryOrderList a.category ≠ -1 := by omega
      have hic' : jsIndexOf categoryOrderList c.category ≠ -1 := by omega
      simp [hia', hib, hic'] at hbc
    · have hia' : jsIndexOf categoryOrderList a.category ≠ -1 := by omega
      have hib' : jsIndexOf categoryOrderList b.category ≠ -1 := by omega
      simp [hia', hib', hic]
    · have hia' : jsIndexOf categoryOrderList a.category ≠ -1 := by omega
      have hib' : jsIndexOf categoryOrderList b.category ≠ -1 := by omega
      have hic' : jsIndexOf categoryOrderList c.category ≠ -1 := by omega
      simp [hia', hib', hic'] at hab hbc ⊢
      omega
  -- case true true true
  · rw [jsIndexOf_exact _ ha, jsIndexOf_exact _ hb] at hab
    rw [jsIndexOf_exact _ hb, jsIndexOf_exact _ hc] at hbc
    rw [jsIndexOf_exact _ ha, jsIndexOf_exact _ hc]
    simp at hab hbc ⊢
    exact localeCompare_trans _ _ _ hab hbc

/-- Membership after stable insertion. -/
theorem mem_insertSortedVariant (x z : PluralVariant) :
    ∀ l : List PluralVariant, z ∈ insertSortedVariant x l → z = x ∨ z ∈ l := by
  intro l
  induction l with
  | nil =>
    intro h
    simp [insertSortedVariant] at h
    exact Or.inl h
  | cons y ys ih =>
    intro h
    simp only [insertSortedVariant] at h
    by_cases hcy : compareVariants y x ≤ 0
    · rw [if_pos hcy] at h
      rcases List.mem_cons.mp h with rfl | h2
      · exact Or.inr (List.mem_cons_self _ _)
      · rcases ih h2 with h3 | h3
        · exact Or.inl h3
        · exact Or.inr (List.mem_cons_of_mem _ h3)
    · rw [if_neg hcy] at h
      rcases List.mem_cons.mp h with rfl | h2
      · exact Or.inl rfl
      · exact Or.inr h2

/-- Stable insertion preserves comparator sortedness. -/
theorem pairwise_insertSortedVariant (x : PluralVariant) :
    ∀ l : List PluralVariant, l.Pairwise variantLe →
      (insertSortedVariant x l).Pairwise variantLe := by
  intro l
  induction l with
  | nil =>
    intro _
    simp [insertSortedVariant, List.pairwise_cons]
  | cons y ys ih =>
    intro h
    rcases List.pairwise_cons.mp h with ⟨hy, hys⟩
    simp only [insertSortedVariant]
    by_cases hcy : compareVariants y x ≤ 0
    · rw [if_pos hcy]
      refine List.pairwise_cons.mpr ⟨?_, ih hys⟩
      intro z hz
      rcases mem_insertSortedVariant x z ys hz with rfl | hzys
      · exact hcy
      · exact hy z hzys
    · rw [if_neg hcy]
      have hxy : variantLe x y := by
        rcases compareVariants_total x y with h1 | h1
        · exact h1
        · exact absurd h1 hcy
      refine List.pairwise_cons.mpr ⟨?_, h⟩
      intro z hz
      rcases List.mem_cons.mp hz with rfl | hzys
      · exact hxy
      · exact compareVariants_trans _ _ _ hxy (hy z hzys)

/-- The comparator sort always returns a comparator-sorted list. -/
theorem pairwise_jsSortVariants (l : List PluralVariant) :
    (jsSortVariants l).Pairwise variantLe := by
  suffices h : ∀ acc : List PluralVariant, acc.Pairwise variantLe →
      (l.foldl (fun acc x => insertSortedVariant x acc) acc).Pairwise variantLe by
    exact h [] (List.Pairwise.nil)
  induction l with
  | nil =>
    intro acc hacc
    exact hacc
  | cons x xs ih =>
    intro acc hacc
    exact ih _ (pairwise_insertSortedVariant x acc hacc)

/-- The comparator order implies the descriptive block order. -/
theorem variantLe_blockOrder (a b : PluralVariant) (h : variantLe a b) :
    variantBlockOrder a b := by
  unfold variantLe compareVariants at h
  unfold variantBlockOrder
  cases ha : isExactCategory a.category <;> cases hb : isExactCategory b.category <;>
    simp only [ha, hb, Bool.not_true, Bool.not_false, Bool.true_and, Bool.false_and,
      Bool.and_true, Bool.and_false, Bool.and_self, Bool.false_eq_true, Bool.true_eq_false,
      if_true, if_false, ite_true, ite_false] at h
  · rcases jsIndexOf_cases categoryOrderList a.category with hia | hia <;>
      rcases jsIndexOf_cases categoryOrderList b.category with hib | hib
    · simp only [hia, hib] at h
      simp at h
      refine Or.inr (Or.inr ⟨rfl, rfl, Or.inr (Or.inr ⟨hia, hib, ?_⟩)⟩)
      exact (localeCompare_nonpos _ _).mp h
    · have hib' : jsIndexOf categoryOrderList b.category ≠ -1 := by omega
      simp [hia, hib'] at h
    · have hia' : jsIndexOf categoryOrderList a.category ≠ -1 := by omega
      exact Or.inr (Or.inr ⟨rfl, rfl, Or.inr (Or.inl ⟨hia', hib⟩)⟩)
    · have hia' : jsIndexOf categoryOrderList a.category ≠ -1 := by omega
      have hib' : jsIndexOf categoryOrderList b.category ≠ -1 := by omega
      simp [hia', hib'] at h
      exact Or.inr (Or.inr ⟨rfl, rfl, Or.inl ⟨hia', hib', by omega⟩⟩)
  · simp at h
  · exact Or.inl ⟨rfl, rfl⟩
  · rw [jsIndexOf_exact _ ha, jsIndexOf_exact _ hb] at h
    simp at h
    exact Or.inr (Or.inl ⟨rfl, rfl, (localeCompare_nonpos _ _).mp h⟩)

/-- Claim C6: refuted as stated — for the input variants `=1` then `=0` (for
language `ja`, no `other` supplied) the validated output lists `=0` before
`=1`: exact matches are reordered lexicographically, not kept in input order
(the output also shows the duplicated synthesized `other`). -/
theorem c6_exact_match_input_order_counterexample :
    validatePluralVariants [⟨"=1", "a"⟩, ⟨"=0", "b"⟩] "ja" false =
      [⟨"=0", "b"⟩, ⟨"=1", "a"⟩, ⟨"other", "a"⟩, ⟨"other", "a"⟩] ∧
    (validatePluralVariants [⟨"=1", "a"⟩, ⟨"=0", "b"⟩] "ja" false).filter
        (fun v => isExactCategory v.category)
      ≠ ([⟨"=1", "a"⟩, ⟨"=0", "b"⟩] : List PluralVariant).filter
        (fun v => isExactCategory v.category) :=
  ⟨rfl, by decide⟩

/-- Claim C6 (amended): every variant list passed through category
validation comes out ordered in blocks — all exact-match variants first,
sorted lexicographically among themselves (not in input order), then CLDR
categories in the fixed canonical order `zero, one, two, few, many, other`,
then unrecognized category names sorted lexicographically. -/
theorem c6_validated_variants_block_order :
    ∀ (variants : List PluralVariant) (targetLanguage : String) (isOrdinal : Bool),
    (validatePluralVariants variants targetLanguage isOrdinal).Pairwise variantBlockOrder := by
  intro vs lang ord
  unfold validatePluralVariants
  exact List.Pairwise.imp (fun hab => variantLe_blockOrder _ _ hab) (pairwise_jsSortVariants _)

/-- Adding a variable keeps the existing ones. -/
theorem mem_addVar (vars : List String) (n x : String) (h : x ∈ vars) : x ∈ addVar vars n := by
  unfold addVar
  split
  · exact h
  · exact List.mem_append_left _ h

/-- The added variable is in the result. -/
theorem mem_addVar_self (vars : List String) (n : String) : n ∈ addVar vars n := by
  unfold addVar
  split
  case isTrue h => exact h
  case isFalse h => exact List.mem_append_right _ (List.mem_cons_self _ _)

/-- Step combinator for the parse-loop invariant: pushing one named element
after recording its name preserves the invariant. -/
theorem parseLoop_inv_step
    (p : ParsedICUMessage) (elems : List ICUElement) (vars : List String)
    (elem : ICUElement) (name : String)
    (hm : ∀ x ∈ addVar vars name, x ∈ p.variables')
    (hi : (∀ e ∈ elems ++ [elem], ∀ n, elementName e = some n → n ∈ addVar vars name) →
      ∀ e ∈ p.elements, ∀ n, elementName e = some n → n ∈ p.variables')
    (hname : ∀ n, elementName elem = some n → n = name) :
    (∀ x ∈ vars, x ∈ p.variables') ∧
    ((∀ e ∈ elems, ∀ n, elementName e = some n → n ∈ vars) →
      ∀ e ∈ p.elements, ∀ n, elementName e = some n → n ∈ p.variables') := by
  constructor
  · intro x hx
    exact hm x (mem_addVar _ _ _ hx)
  · intro hinv
    apply hi
    intro e he n hn
    rcases List.mem_append.mp he with he1 | he2
    · exact mem_addVar _ _ _ (hinv e he1 n hn)
    · rw [List.mem_singleton] at he2
      subst he2
      rw [hname n hn]
      exact mem_addVar_self _ _

/-- Invariant of the main parse loop: the variable list of a successful
result absorbs the accumulated variable list, and every parsed element with
a name has that name recorded. -/
theorem parseLoop_inv (src : String) :
    ∀ (fuel : Nat) (rest : List Char) (elems : List ICUElement) (vars : List String)
      (hp hs : Bool) (p : ParsedICUMessage),
    parseLoop src fuel rest elems vars hp hs = some (.ok p) →
    (∀ x ∈ vars, x ∈ p.variables') ∧
    ((∀ e ∈ elems, ∀ n, elementName e = some n → n ∈ vars) →
      ∀ e ∈ p.elements, ∀ n, elementName e = some n → n ∈ p.variables') := by
  intro fuel
  induction fuel with
  | zero =>
    intro rest elems vars hp hs p h
    cases h
  | succ k ih =>
    intro rest elems vars hp hs p h
    cases rest with
    | nil =>
      simp only [parseLoop, Option.some.injEq, Except.ok.injEq] at h
      subst h
      exact ⟨fun x hx => hx, fun hinv => hinv⟩
    | cons c cs =>
      simp only [parseLoop] at h
      split at h
      · -- argument branch: c = lbrace
        split at h
        · simp at h
        · split at h
          · -- a character follows the name
            split at h
            · -- simple argument
              exact parseLoop_inv_step p elems vars _ _ (ih _ _ _ _ _ _ h).1 (ih _ _ _ _ _ _ h).2
                (fun n hn => (Option.some.inj hn).symm)
            · split at h
              · -- comma after the name
                split at h
                · -- plural or selectordinal keyword
                  split at h
                  · cases h
                  · simp at h
                  · exact parseLoop_inv_step p elems vars _ _ (ih _ _ _ _ _ _ h).1
                      (ih _ _ _ _ _ _ h).2
                      (by intro n hn; split at hn <;> exact (Option.some.inj hn).symm)
                · split at h
                  · -- select keyword
                    split at h
                    · cases h
                    · simp at h
                    · exact parseLoop_inv_step p elems vars _ _ (ih _ _ _ _ _ _ h).1
                        (ih _ _ _ _ _ _ h).2 (fun n hn => (Option.some.inj hn).symm)
                  · -- typed argument
                    split at h
                    · split at h
                      · exact parseLoop_inv_step p elems vars _ _ (ih _ _ _ _ _ _ h).1
                          (ih _ _ _ _ _ _ h).2 (fun n hn => (Option.some.inj hn).symm)
                      · simp at h
                    · simp at h
              · -- unexpected character
                simp at h
          · -- end of input after the name
            simp at h
      · -- text branch
        split at h
        · exact ih _ _ _ _ _ _ h
        · have hstep := ih _ _ _ _ _ _ h
          refine ⟨hstep.1, fun hinv => hstep.2 ?_⟩
          intro e he n hn
          rcases List.mem_append.mp he with he1 | he2
          · exact hinv e he1 n hn
          · rw [List.mem_singleton] at he2
            subst he2
            cases hn

/-- Claim C4: refuted as stated — in the nested select message the option
text `\x7bname\x7d` contains an argument construct (parsing that text alone
yields the variable `name`), yet the variables of the parsed outer message
are exactly `[g]`: names occurring only inside a variant's or option's braced
text are not recorded, because the parser keeps that text unparsed. -/
theorem c4_nested_variable_missing_counterexample :
    parseICUMessage nestedSelectMessage 100 = some (.ok nestedSelectParsed) ∧
    selectOptionsOf nestedSelectParsed = [⟨"a", "\x7bname\x7d"⟩, ⟨"other", "x"⟩] ∧
    parseICUMessage innerArgMessage 10 = some (.ok innerArgParsed) ∧
    innerArgParsed.variables' = ["name"] ∧
    nestedSelectParsed.variables' = ["g"] ∧
    "name" ∉ nestedSelectParsed.variables' :=
  ⟨rfl, rfl, rfl, rfl, rfl, by decide⟩

/-- Claim C4 (amended): for every message that parses successfully,
`variables` contains the name of every argument, plural, select and
selectordinal element of the parsed element list — i.e. every construct the
parser actually parses, which are the top-level ones; names occurring only
inside a variant's or option's braced text are not included. -/
theorem c4_variables_cover_parsed_elements :
    ∀ (m : String) (fuel : Nat) (p : ParsedICUMessage),
    parseICUMessage m fuel = some (.ok p) →
    ∀ e ∈ p.elements, ∀ n, elementName e = some n → n ∈ p.variables' := by
  intro m fuel p h
  refine (parseLoop_inv m fuel m.data [] [] false false p h).2 ?_
  intro e he
  cases he

/-- Witness for the amended C4 at the message `Hello, \x7bname\x7d!`. -/
theorem c4_variables_cover_parsed_elements_witness :
    parseICUMessage helloMessage 10 = some (.ok helloParsed) ∧
    "name" ∈ helloParsed.variables' :=
  ⟨rfl, c4_variables_cover_parsed_elements helloMessage 10 helloParsed rfl
    (ICUElement.argument "name" none none 7 13) (by decide) "name" rfl⟩

/-- Unfolding equation of the text scanner on a cons cell outside quotes. -/
theorem readText_false_cons (c : Char) (cs : List Char) :
    readText false (c :: cs) =
      if c = lbrace || c = rbrace then ([], c :: cs)
      else if c = squote then
        (match cs with
         | c2 :: cs2 =>
           if c2 = squote then (squote :: (readText false cs2).1, (readText false cs2).2)
           else readText true (c2 :: cs2)
         | [] => readText true [])
      else ((c :: (readText false cs).1, (readText false cs).2)) := by
  cases cs <;> rfl

/-- Unfolding equation of the identifier reader on a cons cell. -/
theorem readIdentifier_cons (c : Char) (cs : List Char) :
    readIdentifier (c :: cs) =
      if identChar c then ((c :: (readIdentifier cs).1, (readIdentifier cs).2))
      else ([], c :: cs) := rfl

/-- Unfolding equation of the whitespace skipper on a cons cell. -/
theorem skipWs_cons (c : Char) (cs : List Char) :
    skipWs (c :: cs) = if jsWhitespace c then skipWs cs else c :: cs := rfl

/-- An identifier character is never whitespace. -/
theorem identChar_not_ws (c : Char) (h : identChar c = true) : jsWhitespace c = false := by
  cases hw : jsWhitespace c
  · rfl
  · exfalso
    simp only [jsWhitespace, Bool.or_eq_true, decide_eq_true_eq] at hw
    rcases hw with ((((hc | hc) | hc) | hc) | hc) | hc <;> subst hc <;>
      exact absurd h (by decide)

/-- The whitespace skipper leaves input starting with a non-space alone. -/
theorem skipWs_nonws (c : Char) (cs : List Char) (h : jsWhitespace c = false) :
    skipWs (c :: cs) = c :: cs := by
  rw [skipWs_cons, h]
  simp

/-- The text scanner copies a run of plain characters verbatim and stops at
the end of input or at an opening brace. -/
theorem readText_plain :
    ∀ (l t : List Char), (∀ c ∈ l, plainChar c = true) →
      (t = [] ∨ ∃ t', t = lbrace :: t') →
      readText false (l ++ t) = (l, t) := by
  intro l
  induction l with
  | nil =>
    intro t _ ht
    rcases ht with rfl | ⟨t', rfl⟩
    · rfl
    · rw [List.nil_append, readText_false_cons, if_pos (by simp)]
  | cons c l' ih =>
    intro t hpl ht
    have hc : plainChar c = true := hpl c (List.mem_cons_self _ _)
    simp only [plainChar, Bool.not_eq_true', Bool.or_eq_false_iff,
      decide_eq_false_iff_not] at hc
    rw [List.cons_append, readText_false_cons,
      if_neg (by simp [hc.1.1, hc.1.2]), if_neg (by simp [hc.2]),
      ih t (fun x hx => hpl x (List.mem_cons_of_mem _ hx)) ht]

/-- The identifier reader consumes exactly a run of identifier characters. -/
theorem readIdentifier_exact :
    ∀ (l t : List Char), (∀ c ∈ l, identChar c = true) →
      (t = [] ∨ ∃ c cs, t = c :: cs ∧ identChar c = false) →
      readIdentifier (l ++ t) = (l, t) := by
  intro l
  induction l with
  | nil =>
    intro t _ ht
    rcases ht with rfl | ⟨c, cs, rfl, hc⟩
    · rfl
    · rw [List.nil_append, readIdentifier_cons, hc]
      simp
  | cons c l' ih =>
    intro t hil ht
    have hc : identChar c = true := hil c (List.mem_cons_self _ _)
    rw [List.cons_append, readIdentifier_cons, hc,
      ih t (fun x hx => hil x (List.mem_cons_of_mem _ hx)) ht]
    simp

/-- Data of the one-character left-brace string. -/
theorem lbrace_str_data : ("\x7b" : String).data = [lbrace] := rfl
/-- Data of the one-character right-brace string. -/
theorem rbrace_str_data : ("\x7d" : String).data = [rbrace] := rfl

/-- Character shape of a rendering that starts with an argument item. -/
theorem renderItems_arg_cons (n : String) (its : List SimpleItem) :
    (renderItems (SimpleItem.arg n :: its)).data
      = lbrace :: (n.data ++ rbrace :: (renderItems its).data) := by
  show (("\x7b" ++ n ++ "\x7d") ++ renderItems its).data = _
  simp [String.data_append, lbrace_str_data, rbrace_str_data]
  exact ⟨rfl, rfl⟩

example (l : List Char) (p : Char → Bool) (h : l.all p = true) : ∀ x ∈ l, p x = true := by
  exact fun x hx => List.all_eq_true.mp h x hx

/-- Parsing a rendered canonical item list succeeds with one element per
item, whatever state the loop starts in (fuel: one unit per item plus one). -/
theorem parseLoop_render (src : String) :
    ∀ (items : List SimpleItem), itemsWf items = true →
    ∀ (elems : List ICUElement) (vars : List String) (hp hs : Bool),
    ∃ (out : List ICUElement) (vars2 : List String),
      parseLoop src (items.length + 1) (renderItems items).data elems vars hp hs
        = some (.ok ⟨src, elems ++ out, hp, hs, vars2, hp || hs⟩) ∧
      List.Forall₂ itemMatches items out := by
  intro items
  induction items with
  | nil =>
    intro _ elems vars hp hs
    refine ⟨[], vars, ?_, List.Forall₂.nil⟩
    simp [renderItems, parseLoop]
  | cons it its ih =>
    intro hwf elems vars hp hs
    simp only [itemsWf, Bool.and_eq_true] at hwf
    obtain ⟨⟨hok, hnb⟩, hwf2⟩ := hwf
    cases it with
    | plain s =>
      simp only [itemOk, Bool.and_eq_true, Bool.not_eq_true'] at hok
      obtain ⟨hne, hall⟩ := hok
      have hall2 : ∀ x ∈ s.data, plainChar x = true := fun x hx => List.all_eq_true.mp hall x hx
      obtain ⟨c, l2, hsd⟩ : ∃ c l2, s.data = c :: l2 := by
        cases hsd : s.data with
        | nil =>
          rw [hsd] at hne
          simp at hne
        | cons a b => exact ⟨a, b, rfl⟩
      have htail : (renderItems its).data = [] ∨
          ∃ t2, (renderItems its).data = lbrace :: t2 := by
        cases its with
        | nil => exact Or.inl rfl
        | cons it2 its2 =>
          cases it2 with
          | plain s2 => simp [notBothPlain] at hnb
          | arg n2 => exact Or.inr ⟨_, renderItems_arg_cons n2 its2⟩
      have hread : readText false (s.data ++ (renderItems its).data)
          = (s.data, (renderItems its).data) := readText_plain _ _ hall2 htail
      have hcp : plainChar c = true := hall2 c (by rw [hsd]; exact List.mem_cons_self _ _)
      have hcl : ¬ (c = lbrace) := by
        simp only [plainChar, Bool.not_eq_true', Bool.or_eq_false_iff,
          decide_eq_false_iff_not] at hcp
        exact hcp.1.1
      have hrest : (renderItems (SimpleItem.plain s :: its)).data
          = c :: (l2 ++ (renderItems its).data) := by
        show (s ++ renderItems its).data = _
        rw [String.data_append, hsd, List.cons_append]
      obtain ⟨out2, vars2, heq, hm⟩ := ih hwf2
        (elems ++ [ICUElement.text (String.mk s.data)
          (src.length - ((l2 ++ (renderItems its).data).length + 1))
          (src.length - (renderItems its).data.length)]) vars hp hs
      rw [hrest, List.length_cons]
      generalize hk4 : its.length + 1 = fl at heq ⊢
      simp only [parseLoop]
      rw [if_neg hcl]
      rw [← List.cons_append, ← hsd, hread]
      have hne2 : (s.data.isEmpty = true) = False := by
        simp [hne]
      simp only [hne2, if_false]
      rw [heq]
      have hmk : String.mk s.data = s := rfl
      refine ⟨ICUElement.text s (src.length - ((l2 ++ (renderItems its).data).length + 1))
        (src.length - (renderItems its).data.length) :: out2, vars2, ?_, ?_⟩
      · rw [hmk]
        simp [List.append_assoc]
      · exact List.Forall₂.cons ⟨_, _, rfl⟩ hm
    | arg n =>
      simp only [itemOk, Bool.and_eq_true, Bool.not_eq_true'] at hok
      obtain ⟨hne, hall⟩ := hok
      have hall2 : ∀ x ∈ n.data, identChar x = true := fun x hx => List.all_eq_true.mp hall x hx
      obtain ⟨c0, l0, hnd⟩ : ∃ c0 l0, n.data = c0 :: l0 := by
        cases hnd : n.data with
        | nil =>
          rw [hnd] at hne
          simp at hne
        | cons a b => exact ⟨a, b, rfl⟩
      have hsw : skipWs (n.data ++ rbrace :: (renderItems its).data)
          = n.data ++ rbrace :: (renderItems its).data := by
        rw [hnd, List.cons_append]
        refine skipWs_nonws _ _ (identChar_not_ws _ ?_)
        exact hall2 c0 (by rw [hnd]; exact List.mem_cons_self _ _)
      have hri : readIdentifier (n.data ++ rbrace :: (renderItems its).data)
          = (n.data, rbrace :: (renderItems its).data) :=
        readIdentifier_exact _ _ hall2 (Or.inr ⟨rbrace, _, rfl, by decide⟩)
      have hne2 : (n.data.isEmpty = true) = False := by
        simp [hne]
      have hmk : String.mk n.data = n := rfl
      obtain ⟨out2, vars2, heq, hm⟩ := ih hwf2
        (elems ++ [ICUElement.argument (String.mk n.data) none none
          (src.length - ((n.data ++ rbrace :: (renderItems its).data).length + 1))
          (src.length - (renderItems its).data.length)]) (addVar vars (String.mk n.data)) hp hs
      rw [renderItems_arg_cons, List.length_cons]
      generalize hk4 : its.length + 1 = fl at heq ⊢
      simp only [parseLoop, if_true]
      rw [hsw, hri]
      simp only [hne2, if_false]
      rw [skipWs_nonws rbrace _ (by decide)]
      rw [hmk] at heq
      refine ⟨ICUElement.argument n none none
        (src.length - ((n.data ++ rbrace :: (renderItems its).data).length + 1))
        (src.length - (renderItems its).data.length) :: out2, vars2, ?_, ?_⟩
      · show parseLoop src fl (renderItems its).data
            (elems ++ [ICUElement.argument n none none
              (src.length - ((n.data ++ rbrace :: (renderItems its).data).length + 1))
              (src.length - (renderItems its).data.length)])
            (addVar vars n) hp hs
          = some (.ok ⟨src,
              elems ++ (ICUElement.argument n none none
                (src.length - ((n.data ++ rbrace :: (renderItems its).data).length + 1))
                (src.length - (renderItems its).data.length) :: out2),
              hp, hs, vars2, hp || hs⟩)
        rw [heq]
        simp [List.append_assoc]
      · exact List.Forall₂.cons ⟨_, _, rfl⟩ hm

/-- Reconstructing the elements parsed from a canonical item list, with no
translations and no options, reproduces the rendering. -/
theorem reconstructElems_render :
    ∀ (items : List SimpleItem) (out : List ICUElement),
    List.Forall₂ itemMatches items out →
    ∀ i : Nat, reconstructElems emptyTranslations none i out = renderItems items := by
  intro items out hm
  induction hm with
  | nil =>
    intro i
    rfl
  | @cons it e its es hrel hrest ih =>
    intro i
    cases it with
    | plain s =>
      obtain ⟨st, sp, rfl⟩ := hrel
      simp only [reconstructElems, renderItems, renderItem, emptyTranslations] at ih ⊢
      rw [ih]
      rfl
    | arg n =>
      obtain ⟨st, sp, rfl⟩ := hrel
      simp only [reconstructElems, renderItems, renderItem, emptyTranslations,
        reconstructArgument, strOptFalsy, if_true] at ih ⊢
      rw [ih]

/-- Claim C5 (amended): for every canonical message (plain text runs without
braces or quotes, alternating with bare arguments written exactly as
`\x7bname\x7d`), the message parses with no plural and no select and
`reconstructICUMessage (parse m) \x7b\x7d \x7b\x7d` reproduces the message
exactly.  The restriction to canonical text is forced: ICU quote escapes are
interpreted during parsing and argument whitespace is normalized, so the
unrestricted claim fails. -/
theorem c5_roundtrip_canonical_messages :
    ∀ items : List SimpleItem, itemsWf items = true →
    ∃ p : ParsedICUMessage,
      parseICUMessage (renderItems items) (items.length + 1) = some (.ok p) ∧
      p.hasPlurals = false ∧ p.hasSelect = false ∧
      reconstructICUMessage p emptyTranslations none = renderItems items := by
  intro items hwf
  obtain ⟨out, vars2, heq, hm⟩ :=
    parseLoop_render (renderItems items) items hwf [] [] false false
  refine ⟨⟨renderItems items, [] ++ out, false, false, vars2, false⟩, heq, rfl, rfl, ?_⟩
  show reconstructElems emptyTranslations none 0 ([] ++ out) = renderItems items
  rw [List.nil_append]
  exact reconstructElems_render items out hm 0

/-- Witness for the amended C5 at the message `Hello, \x7bname\x7d!`. -/
theorem c5_roundtrip_canonical_messages_witness :
    itemsWf roundTripDemoItems = true ∧
    (∃ p : ParsedICUMessage,
      parseICUMessage (renderItems roundTripDemoItems) (roundTripDemoItems.length + 1)
        = some (.ok p) ∧
      p.hasPlurals = false ∧ p.hasSelect = false ∧
      reconstructICUMessage p emptyTranslations none = renderItems roundTripDemoItems) :=
  ⟨by decide, c5_roundtrip_canonical_messages roundTripDemoItems (by decide)⟩
